import Mathlib

set_option maxRecDepth 8000

/-!
Verification of the translation-reconciliation engine of the
vite-plugin-shipi18n repository (src/index.js).

The JavaScript values that flow through the engine (parsed JSON locale
trees) are embedded as the inductive type `JValue`.  JavaScript objects
are modelled as insertion-ordered association lists; plain JSON data has
no duplicate keys and no aliasing between subtrees, so the functional
model below is the denotation of the imperative code on such inputs.

The functions `findMissingKeys`, `getNestedValue`, `setNestedValue`,
`processRegionalLanguages` and `applyFallbacks` are direct translations
of the equally named exported functions of src/index.js.  The md5 digest
used for the cache key is kept abstract (a function parameter); the
string that is fed to the digest is modelled exactly (`cacheKeyInput`).
-/

/-- Model of a JavaScript/JSON value as produced by JSON.parse. -/
inductive JValue where
  | null : JValue
  | bool (b : Bool) : JValue
  | num (n : Int) : JValue
  | str (s : String) : JValue
  | arr (elems : List JValue) : JValue
  | obj (entries : List (String × JValue)) : JValue
deriving Repr

namespace JValue

/-- Test whether the value is a non-array non-null object
(JS: typeof v === 'object' && v !== null && !Array.isArray(v)). -/
def isObjStrict : JValue → Bool
  | .obj _ => true
  | _ => false

/-- Test whether typeof v === 'object' && v !== null
(true for plain objects and for arrays). -/
def isObjLike : JValue → Bool
  | .obj _ => true
  | .arr _ => true
  | _ => false

/-- Test whether typeof v === 'object' (true also for null). -/
def typeofObject : JValue → Bool
  | .obj _ => true
  | .arr _ => true
  | .null => true
  | _ => false

/-- JavaScript truthiness test: the falsy values among JSON values are
null, false, 0 and the empty string. -/
def jsFalsy : JValue → Bool
  | .null => true
  | .bool b => !b
  | .num n => n == 0
  | .str s => s == ""
  | _ => false

/-- The gap test of findMissingKeys on a present property value:
translationValue === null || translationValue === ''.  (The undefined
case is the none branch of the lookup.) -/
def isNullOrEmptyStr : JValue → Bool
  | .null => true
  | .str s => s == ""
  | _ => false

/-- Entries of an object value; empty for every other value. -/
def entries : JValue → List (String × JValue)
  | .obj kvs => kvs
  | _ => []

end JValue

/-- First-match lookup in an insertion-ordered association list
(JS property read on an object). -/
def lookupA {α : Type} : List (String × α) → String → Option α
  | [], _ => none
  | (k, v) :: rest, key => if k = key then some v else lookupA rest key

/-- Property assignment on an insertion-ordered association list:
an existing key keeps its position, a new key is appended at the end
(JS object assignment semantics). -/
def setA {α : Type} : List (String × α) → String → α → List (String × α)
  | [], key, v => [(key, v)]
  | (k, w) :: rest, key, v =>
      if k = key then (k, v) :: rest else (k, w) :: setA rest key v

/-- Decimal value of a digit list (accumulator form). -/
def parseNatAux : List Char → Nat → Nat
  | [], n => n
  | c :: cs, n => parseNatAux cs (n * 10 + (c.toNat - 48))

/-- Canonical array-index reading of a string key, JS style: the key is
an index exactly when it is the decimal representation of a natural
number with no leading zeros. -/
def canonIndex (k : String) : Option Nat :=
  match k.toList with
  | [] => none
  | ['0'] => some 0
  | c :: cs =>
      if c.isDigit ∧ c ≠ '0' ∧ cs.all Char.isDigit then some (parseNatAux (c :: cs) 0)
      else none

/-- Accumulator loop of the dot-splitting of a path. -/
def splitDotsAux : List Char → List Char → List String
  | [], acc => [String.mk acc.reverse]
  | c :: cs, acc =>
      if c = '.' then String.mk acc.reverse :: splitDotsAux cs []
      else splitDotsAux cs (c :: acc)

/-- JS path.split('.'): splits on every dot; the result is never empty
(splitting the empty string yields [""]). -/
def splitDots (s : String) : List String := splitDotsAux s.toList []

/-- Property read v[key] for JSON values: association-list lookup on
objects; on arrays, element access for canonical indices and the
"length" property; undefined (none) everywhere else. -/
def jsGet : JValue → String → Option JValue
  | .obj kvs, key => lookupA kvs key
  | .arr l, key =>
      if key = "length" then some (.num l.length)
      else
        match canonIndex key with
        | some i => l.get? i
        | none => none
  | _, _ => none

/-- Keys of Object.keys(v): keys of an object, index strings of an array
or a string, empty for primitives. -/
def jsKeys : JValue → List String
  | .obj kvs => kvs.map Prod.fst
  | .arr l => (List.range l.length).map toString
  | .str s => (List.range s.length).map toString
  | _ => []

/-- Object spread { ...v }: copies own enumerable properties.  For an
object this is the object itself; arrays and strings yield their
indexed entries; every other value yields the empty object. -/
def spreadToObj : JValue → JValue
  | .obj kvs => .obj kvs
  | .arr l => .obj (l.enum.map fun p => (toString p.1, p.2))
  | .str s => .obj (s.toList.enum.map fun p => (toString p.1, JValue.str (String.mk [p.2])))
  | _ => .obj []

/-- Dotted-key construction of findMissingKeys:
fullKey = prefix ? prefix + '.' + key : key. -/
def fullKeyOf (pre key : String) : String :=
  if pre = "" then key else pre ++ "." ++ key

mutual

/-- Translation of findMissingKeys(source, translation, prefix) from
src/index.js.  Object.keys of a non-object source yields no keys here;
that case is unreachable from the reconciler (the top-level source is a
locale tree, and recursion is guarded by a non-array-object test on the
source value). -/
def findMissingKeys (source translation : JValue) (pre : String) : List String :=
  match source with
  | .obj kvs => findMissingEntries kvs translation pre
  | _ => []

/-- Body of the for-loop of findMissingKeys over Object.keys(source). -/
def findMissingEntries : List (String × JValue) → JValue → String → List String
  | [], _, _ => []
  | (key, sv) :: rest, translation, pre =>
      let fullKey := fullKeyOf pre key
      (match jsGet translation key with
       | none => [fullKey]
       | some tv =>
          if tv.isNullOrEmptyStr then [fullKey]
          else if sv.isObjStrict && tv.isObjLike then
            findMissingKeys sv tv fullKey
          else []) ++ findMissingEntries rest translation pre

end

/-- Walk of getNestedValue over the split path: each step requires the
current value to be truthy with typeof 'object' and to own the key. -/
def getPathSegs : JValue → List String → Option JValue
  | v, [] => some v
  | v, key :: rest =>
      if v.isObjLike then
        match jsGet v key with
        | some c => getPathSegs c rest
        | none => none
      else none

/-- Translation of getNestedValue(obj, path) from src/index.js. -/
def getNestedValue (obj : JValue) (path : String) : Option JValue :=
  getPathSegs obj (splitDots path)

/-- Abnormal outcomes of setNestedValue: `thrown` models a JavaScript
exception (TypeError from the in-operator or an assignment on null or a
primitive, RangeError from assigning an object to an array's length);
`unmodeled` marks array mutations that leave the JSON value model
(expando properties, holes from out-of-range indices, length writes). -/
inductive SetErr where
  | thrown : SetErr
  | unmodeled : SetErr
deriving Repr, DecidableEq

/-- Final assignment current[lastKey] = value of setNestedValue. -/
def setFinal : JValue → String → JValue → Except SetErr JValue
  | .obj kvs, key, v => .ok (.obj (setA kvs key v))
  | .arr l, key, v =>
      if key = "length" then .error .unmodeled
      else
        match canonIndex key with
        | some i =>
            match l.get? i with
            | some _ => .ok (.arr (l.set i v))
            | none =>
                if i = l.length then .ok (.arr (l ++ [v]))
                else .error .unmodeled
        | none => .error .unmodeled
  | _, _, _ => .error .thrown

/-- Walk of setNestedValue over the split path.  At an intermediate
segment, a key that is absent or holds a value with typeof other than
'object' is overwritten with a fresh empty object; null and arrays have
typeof 'object' and are descended into, so a null intermediate makes the
next step throw. -/
def setSegs : JValue → List String → JValue → Except SetErr JValue
  | cur, [], _ => .ok cur
  | cur, [last], v => setFinal cur last v
  | cur, key :: rest, v =>
      match cur with
      | .obj kvs =>
          let child :=
            match lookupA kvs key with
            | none => JValue.obj []
            | some c => if c.typeofObject then c else JValue.obj []
          (match setSegs child rest v with
           | .ok c2 => .ok (.obj (setA kvs key c2))
           | .error e => .error e)
      | .arr l =>
          if key = "length" then .error .thrown
          else
            match canonIndex key with
            | some i =>
                (match l.get? i with
                 | some e0 =>
                    let child := if e0.typeofObject then e0 else JValue.obj []
                    (match setSegs child rest v with
                     | .ok c2 => .ok (.arr (l.set i c2))
                     | .error e => .error e)
                 | none =>
                    if i = l.length then
                      (match setSegs (JValue.obj []) rest v with
                       | .ok c2 => .ok (.arr (l ++ [c2]))
                       | .error e => .error e)
                    else .error .unmodeled)
            | none => .error .unmodeled
      | _ => .error .thrown

/-- Translation of setNestedValue(obj, path, value) from src/index.js. -/
def setNestedValue (obj : JValue) (path : String) (v : JValue) : Except SetErr JValue :=
  setSegs obj (splitDots path) v

/-- JS test lang.includes('-'). -/
def hasDash (s : String) : Bool := s.toList.contains '-'

/-- JS expression lang.split('-')[0]: the prefix of the code before the
first hyphen. -/
def baseOf (s : String) : String := String.mk (s.toList.takeWhile (fun c => c ≠ '-'))

/-- Loop body of processRegionalLanguages.  The accumulator is
(processedTargets, regionalMap, baseLanguagesAdded). -/
def prlStep (targetLanguages : List String) (regionalFallback : Bool)
    (acc : List String × List (String × String) × List String) (lang : String) :
    List String × List (String × String) × List String :=
  let pts := acc.1
  let rmap := acc.2.1
  let added := acc.2.2
  let next :=
    if hasDash lang && regionalFallback then
      let base := baseOf lang
      let rmap2 := setA rmap lang base
      if !(added.contains base) && !(targetLanguages.contains base) then
        (pts ++ [base], rmap2, added ++ [base])
      else (pts, rmap2, added)
    else (pts, rmap, added)
  if next.1.contains lang then next else (next.1 ++ [lang], next.2.1, next.2.2)

/-- Translation of processRegionalLanguages(targetLanguages,
regionalFallback) from src/index.js; returns (processedTargets,
regionalMap). -/
def processRegionalLanguages (targetLanguages : List String) (regionalFallback : Bool) :
    List String × List (String × String) :=
  let acc := targetLanguages.foldl (prlStep targetLanguages regionalFallback) ([], [], [])
  (acc.1, acc.2.1)

/-- The fallbackInfo record accumulated by applyFallbacks. -/
structure FallbackInfo where
  used : Bool
  languagesFallbackToSource : List String
  regionalFallbacks : List (String × String)
  keysFallback : List (String × List String)
deriving Repr, DecidableEq

/-- Initial fallbackInfo value of applyFallbacks. -/
def FallbackInfo.init : FallbackInfo := ⟨false, [], [], []⟩

/-- The fallbackInfo record as the JavaScript object stored under the
key "fallbackInfo" of the result. -/
def FallbackInfo.toJValue (fi : FallbackInfo) : JValue :=
  .obj [("used", .bool fi.used),
        ("languagesFallbackToSource", .arr (fi.languagesFallbackToSource.map JValue.str)),
        ("regionalFallbacks", .obj (fi.regionalFallbacks.map fun p => (p.1, JValue.str p.2))),
        ("keysFallback", .obj (fi.keysFallback.map fun p => (p.1, JValue.arr (p.2.map JValue.str))))]

/-- The truthiness test regionalFallback && regionalMap[lang]: yields
the base language when the flag is set, the map owns the key, and the
mapped value is a non-empty (hence truthy) string. -/
def regionalBase (regionalFallback : Bool) (regionalMap : List (String × String))
    (lang : String) : Option String :=
  if regionalFallback then
    match lookupA regionalMap lang with
    | some b => if b = "" then none else some b
    | none => none
  else none

/-- The gap test of Case 1 of applyFallbacks:
!translation || Object.keys(translation).length === 0. -/
def missingOrEmpty : Option JValue → Bool
  | none => true
  | some v => v.jsFalsy || (jsKeys v).isEmpty

/-- The setNestedValue calls inside applyFallbacks.  A throw is
impossible at these call sites (every proper ancestor of a reported
missing path is object-like in the translation); an array
expando-property write leaves the JSON value model and is modelled as
keeping the tree unchanged. -/
def setApply (t : JValue) (path : String) (v : JValue) : JValue :=
  match setNestedValue t path v with
  | .ok t2 => t2
  | .error _ => t

/-- Body of the per-missing-key loop of Case 2 of applyFallbacks. -/
def fillKey (sourceContent : JValue) (rf : Bool) (rmap : List (String × String))
    (result : List (String × JValue)) (lang : String) (t : JValue) (key : String) : JValue :=
  let fallbackValue := getNestedValue sourceContent key
  let resultNow := setA result lang t
  let baseValue : Option JValue :=
    match regionalBase rf rmap lang with
    | some baseLang =>
        (match lookupA resultNow baseLang with
         | some bt => if bt.jsFalsy then none else getNestedValue bt key
         | none => none)
    | none => none
  match baseValue with
  | some bv => setApply t key bv
  | none =>
      match fallbackValue with
      | some fv => setApply t key fv
      | none => t

/-- Body of the per-language loop of applyFallbacks.  The accumulator is
(result, fallbackInfo). -/
def aflStep (sourceContent : JValue) (fts rf : Bool) (rmap : List (String × String))
    (acc : List (String × JValue) × FallbackInfo) (lang : String) :
    List (String × JValue) × FallbackInfo :=
  let result := acc.1
  let fi := acc.2
  let translation := lookupA result lang
  if missingOrEmpty translation then
    -- Case 1: entire language missing.
    let sourceFb :=
      if fts then
        (setA result lang (spreadToObj sourceContent),
         { fi with used := true,
                   languagesFallbackToSource := fi.languagesFallbackToSource ++ [lang] })
      else (result, fi)
    match regionalBase rf rmap lang with
    | some baseLang =>
        (match lookupA result baseLang with
         | some bt =>
            if !bt.jsFalsy && !(jsKeys bt).isEmpty then
              (setA result lang (spreadToObj bt),
               { fi with used := true,
                         regionalFallbacks := setA fi.regionalFallbacks lang baseLang })
            else sourceFb
         | none => sourceFb)
    | none => sourceFb
  else
    -- Case 2: check for missing keys.
    match translation with
    | some t =>
        if fts && t.isObjLike then
          let mk := findMissingKeys sourceContent t ""
          if mk.isEmpty then (result, fi)
          else
            let t2 := mk.foldl (fillKey sourceContent rf rmap result lang) t
            (setA result lang t2,
             { fi with used := true, keysFallback := setA fi.keysFallback lang mk })
        else (result, fi)
    | none => (result, fi)

/-- Translation of applyFallbacks(result, sourceContent, targetLanguages,
sourceLanguage, fallbackToSource, regionalFallback, regionalMap) from
src/index.js.  The sourceLanguage parameter is never read by the
JavaScript body.

This list-valued model treats trees as values and therefore cannot see
mutation through aliasing: in JavaScript, Case 1 assigns a SHALLOW copy
{...baseTranslation} whose nested objects are shared with
result[baseLang], and a later Case-2 setNestedValue on that copy
deep-mutates the shared subtree.  Such a patch of a Case-1 copy is
reachable exactly when a language code repeats in targetLanguages (a
copy is patched only at a later iteration of the same code); whenever
no code repeats, every Case-2 patch acts on the language's original,
unshared raw tree and this model is the exact denotation.  The
heap-based applyFallbacksHeap captures the general mutation
semantics. -/
def applyFallbacks (result : List (String × JValue)) (sourceContent : JValue)
    (targetLanguages : List String) (_sourceLanguage : String)
    (fallbackToSource regionalFallback : Bool) (regionalMap : List (String × String)) :
    List (String × JValue) :=
  let p := targetLanguages.foldl
    (aflStep sourceContent fallbackToSource regionalFallback regionalMap)
    (result, FallbackInfo.init)
  if p.2.used then setA p.1 "fallbackInfo" p.2.toJValue else p.1

/-- Digest input of the cache-key derivation in buildStart:
sourceContent + targetLanguages.join(','). -/
def cacheKeyInput (sourceContent : String) (targetLanguages : List String) : String :=
  sourceContent ++ String.intercalate "," targetLanguages

/-- Cache-key derivation with the md5 hex digest kept abstract. -/
def deriveKey (md5hex : String → String) (sourceContent : String)
    (targetLanguages : List String) : String :=
  md5hex (cacheKeyInput sourceContent targetLanguages)

/-- Dotted join of a key path (the inverse of splitting on '.'). -/
def joinDots : List String → String
  | [] => ""
  | [k] => k
  | k :: rest => k ++ "." ++ joinDots rest

mutual

/-- Specification-side reading of the differ, stated on structured key
paths: a path is missing when the walk reaches it and the candidate
value at it is absent, null, or the empty string; the walk descends into
a key exactly when the source value is a non-array object and the
candidate value is object-like (a non-null object or an array). -/
def missingPaths : JValue → JValue → List (List String)
  | .obj kvs, c => missingPathsEntries kvs c
  | _, _ => []

/-- Entry-list form of missingPaths. -/
def missingPathsEntries : List (String × JValue) → JValue → List (List String)
  | [], _ => []
  | (key, sv) :: rest, c =>
      (match jsGet c key with
       | none => [[key]]
       | some tv =>
          if tv.isNullOrEmptyStr then [[key]]
          else if sv.isObjStrict && tv.isObjLike then
            (missingPaths sv tv).map (key :: .)
          else []) ++ missingPathsEntries rest c

end

mutual

/-- Modelled from the claim of C3: the recursion rule as the spec states
it, descending into a key only when the source value AND the candidate
value are both non-array objects; in every other case the key is a leaf
comparison. -/
def missingPathsClaim : JValue → JValue → List (List String)
  | .obj kvs, c => missingPathsClaimEntries kvs c
  | _, _ => []

/-- Entry-list form of missingPathsClaim. -/
def missingPathsClaimEntries : List (String × JValue) → JValue → List (List String)
  | [], _ => []
  | (key, sv) :: rest, c =>
      (match jsGet c key with
       | none => [[key]]
       | some tv =>
          if tv.isNullOrEmptyStr then [[key]]
          else if sv.isObjStrict && tv.isObjStrict then
            (missingPathsClaim sv tv).map (key :: .)
          else []) ++ missingPathsClaimEntries rest c

end

/-- Walking the source's structure: the path exists in the source,
descending through nested objects. -/
def sourceWalks : JValue → List String → Bool
  | _, [] => true
  | .obj kvs, key :: rest =>
      (match lookupA kvs key with
       | some sv => sourceWalks sv rest
       | none => false)
  | _, _ :: _ => false

/-- The candidate value at a structured path, descending through nested
objects; none when any position along the path is absent. -/
def candAt : JValue → List String → Option JValue
  | v, [] => some v
  | .obj kvs, key :: rest =>
      (match lookupA kvs key with
       | some cv => candAt cv rest
       | none => none)
  | _, _ :: _ => none

/-- Modelled from the claim of C2, read literally: a key-path is missing
when, walking the source's structure, the corresponding position in the
candidate is absent, null, or the empty string. -/
def claimC2Missing (source candidate : JValue) (p : List String) : Bool :=
  sourceWalks source p &&
    (match candAt candidate p with
     | none => true
     | some v => v.isNullOrEmptyStr)

/-- Key lists without repetition (JavaScript objects cannot repeat a
key, so well-formed embedded trees satisfy this). -/
def nodupKeys : List String → Bool
  | [] => true
  | k :: rest => !rest.contains k && nodupKeys rest

mutual

/-- Well-formed tree whose object levels have no duplicate keys and
whose object values are never null or the empty string (the two
present values the differ counts as missing). -/
def cleanTree : JValue → Bool
  | .obj kvs => nodupKeys (kvs.map Prod.fst) && cleanEntries kvs
  | _ => true

/-- Entry-list form of cleanTree. -/
def cleanEntries : List (String × JValue) → Bool
  | [] => true
  | (_, v) :: rest =>
      (match v with
       | .null => false
       | .str s => !(s == "")
       | _ => true) && cleanTree v && cleanEntries rest

end

/-- Join of a structured path under a prefix, mirroring the dotted-key
accumulation of findMissingKeys. -/
def preJoin (pre : String) (p : List String) : String :=
  if pre = "" then joinDots p else pre ++ "." ++ joinDots p

/-- Path condition for the setNestedValue correctness statement: the
walk never meets an array (array nodes are mutated as objects by the
code, which leaves the JSON value model). -/
def noArrRoute : JValue → List String → Bool
  | .arr _, _ :: _ => false
  | .obj kvs, key :: rest =>
      (match rest with
       | [] => true
       | _ :: _ =>
          (match lookupA kvs key with
           | some c => noArrRoute c rest
           | none => true))
  | _, _ => true

/-- Heap address for the mutation-aware model of applyFallbacks. -/
abbrev Addr := Nat

/-- JavaScript value in the heap model: primitives and arrays are
immediate, every (non-array) object is a reference into the heap, so
the structure sharing created by shallow copies is explicit. -/
inductive HVal where
  | null : HVal
  | bool (b : Bool) : HVal
  | num (n : Int) : HVal
  | str (s : String) : HVal
  | arr (elems : List HVal) : HVal
  | ref (a : Addr) : HVal
deriving Repr

/-- Object heap: property lists addressed by Addr, plus the next fresh
address. -/
structure Heap where
  objs : List (Addr × List (String × HVal))
  next : Addr
deriving Repr

/-- Lookup of an object's property list by address. -/
def lookupAddr : List (Addr × List (String × HVal)) → Addr → Option (List (String × HVal))
  | [], _ => none
  | (a, kvs) :: rest, b => if a = b then some kvs else lookupAddr rest b

/-- In-place update of an object's property list by address. -/
def setAddr : List (Addr × List (String × HVal)) → Addr → List (String × HVal) →
    List (Addr × List (String × HVal))
  | [], a, kvs => [(a, kvs)]
  | (a1, k1) :: rest, a, kvs =>
      if a1 = a then (a1, kvs) :: rest else (a1, k1) :: setAddr rest a kvs

/-- Property list of the object at an address (empty for a dangling
reference, which well-formed runs never produce). -/
def Heap.entriesAt (h : Heap) (a : Addr) : List (String × HVal) :=
  (lookupAddr h.objs a).getD []

/-- Overwrite the object at an address (JS in-place object mutation). -/
def Heap.updateAt (h : Heap) (a : Addr) (kvs : List (String × HVal)) : Heap :=
  ⟨setAddr h.objs a kvs, h.next⟩

/-- Allocate a fresh object with the given properties. -/
def Heap.alloc (h : Heap) (kvs : List (String × HVal)) : Heap × Addr :=
  (⟨h.objs ++ [(h.next, kvs)], h.next + 1⟩, h.next)

namespace HVal

/-- Heap-model test for a non-array non-null object. -/
def isObjStrict : HVal → Bool
  | .ref _ => true
  | _ => false

/-- Heap-model test for typeof v === 'object' && v !== null. -/
def isObjLike : HVal → Bool
  | .ref _ => true
  | .arr _ => true
  | _ => false

/-- Heap-model test for typeof v === 'object' (true also for null). -/
def typeofObject : HVal → Bool
  | .ref _ => true
  | .arr _ => true
  | .null => true
  | _ => false

/-- Heap-model JavaScript truthiness (objects are always truthy). -/
def jsFalsy : HVal → Bool
  | .null => true
  | .bool b => !b
  | .num n => n == 0
  | .str s => s == ""
  | _ => false

/-- Heap-model gap test v === null || v === ''. -/
def isNullOrEmptyStr : HVal → Bool
  | .null => true
  | .str s => s == ""
  | _ => false

end HVal

/-- Heap-model property read v[key]. -/
def hGet (h : Heap) : HVal → String → Option HVal
  | .ref a, key => lookupA (h.entriesAt a) key
  | .arr l, key =>
      if key = "length" then some (.num l.length)
      else
        match canonIndex key with
        | some i => l.get? i
        | none => none
  | _, _ => none

/-- Heap-model Object.keys. -/
def hKeys (h : Heap) : HVal → List String
  | .ref a => (h.entriesAt a).map Prod.fst
  | .arr l => (List.range l.length).map toString
  | .str s => (List.range s.length).map toString
  | _ => []

/-- Heap-model object spread { ...v }: copies the top-level property
list only, so nested object references are SHARED with the original. -/
def spreadEntriesH (h : Heap) : HVal → List (String × HVal)
  | .ref a => h.entriesAt a
  | .arr l => l.enum.map fun p => (toString p.1, p.2)
  | .str s => s.toList.enum.map fun p => (toString p.1, HVal.str (String.mk [p.2]))
  | _ => []

/-- Heap-model findMissingKeys loop body.  The fuel argument bounds the
total number of steps (it is an embedding device, not part of the
source); any fuel at least the node count of the source tree makes the
function agree with the JavaScript recursion. -/
def findMissingEntriesH : Nat → Heap → List (String × HVal) → HVal → String → List String
  | 0, _, _, _, _ => []
  | fuel + 1, h, entries, translation, pre =>
      match entries with
      | [] => []
      | (key, sv) :: rest =>
          let fullKey := fullKeyOf pre key
          (match hGet h translation key with
           | none => [fullKey]
           | some tv =>
              if tv.isNullOrEmptyStr then [fullKey]
              else
                match sv with
                | .ref a =>
                    if tv.isObjLike then
                      findMissingEntriesH fuel h (h.entriesAt a) tv fullKey
                    else []
                | _ => []) ++ findMissingEntriesH fuel h rest translation pre

/-- Heap-model findMissingKeys(source, translation, prefix). -/
def findMissingKeysH (fuel : Nat) (h : Heap) (source translation : HVal)
    (pre : String) : List String :=
  match source with
  | .ref a => findMissingEntriesH fuel h (h.entriesAt a) translation pre
  | _ => []

/-- Heap-model walk of getNestedValue over the split path. -/
def getPathSegsH (h : Heap) : HVal → List String → Option HVal
  | v, [] => some v
  | v, key :: rest =>
      if v.isObjLike then
        match hGet h v key with
        | some c => getPathSegsH h c rest
        | none => none
      else none

/-- Heap-model getNestedValue(obj, path). -/
def getNestedValueH (h : Heap) (v : HVal) (path : String) : Option HVal :=
  getPathSegsH h v (splitDots path)

/-- Heap-model walk of setNestedValue: object mutations are performed in
the heap, so they are visible through every alias.  A null intermediate
throws as in the value model; array positions on a set path are outside
the heap model (the reconciler counterexample below never meets one). -/
def setSegsH : Heap → HVal → List String → HVal → Except SetErr Heap
  | h, _, [], _ => .ok h
  | h, cur, [last], v =>
      match cur with
      | .ref a => .ok (h.updateAt a (setA (h.entriesAt a) last v))
      | .arr _ => .error .unmodeled
      | _ => .error .thrown
  | h, cur, key :: rest, v =>
      match cur with
      | .ref a =>
          (match lookupA (h.entriesAt a) key with
           | some c =>
              if c.typeofObject then setSegsH h c rest v
              else
                let p := h.alloc []
                let h2 := p.1.updateAt a (setA (p.1.entriesAt a) key (.ref p.2))
                setSegsH h2 (.ref p.2) rest v
           | none =>
              let p := h.alloc []
              let h2 := p.1.updateAt a (setA (p.1.entriesAt a) key (.ref p.2))
              setSegsH h2 (.ref p.2) rest v)
      | .arr _ => .error .unmodeled
      | _ => .error .thrown

/-- Heap-model setNestedValue as used inside applyFallbacks (a throw is
unreachable at those call sites; an out-of-model array write keeps the
heap unchanged). -/
def setApplyH (h : Heap) (t : HVal) (path : String) (v : HVal) : Heap :=
  match setSegsH h t (splitDots path) v with
  | .ok h2 => h2
  | .error _ => h

/-- Heap-model gap test of Case 1 of applyFallbacks. -/
def missingOrEmptyH (h : Heap) : Option HVal → Bool
  | none => true
  | some v => v.jsFalsy || (hKeys h v).isEmpty

/-- Heap-model body of the per-missing-key loop of Case 2.  The
translation t is the same reference throughout the loop, exactly as in
JavaScript, so earlier writes are visible to later base lookups. -/
def fillKeyH (sourceContent : HVal) (rf : Bool) (rmap : List (String × String))
    (resultAddr : Addr) (lang : String) (t : HVal) (h : Heap) (key : String) : Heap :=
  let fallbackValue := getNestedValueH h sourceContent key
  let baseValue : Option HVal :=
    match regionalBase rf rmap lang with
    | some baseLang =>
        (match lookupA (h.entriesAt resultAddr) baseLang with
         | some bt => if bt.jsFalsy then none else getNestedValueH h bt key
         | none => none)
    | none => none
  match baseValue with
  | some bv => setApplyH h t key bv
  | none =>
      match fallbackValue with
      | some fv => setApplyH h t key fv
      | none => h

/-- Heap-model body of the per-language loop of applyFallbacks.  The
shallow copies of Case 1 copy only the top-level property list, so the
copy's nested objects are shared with the copied tree. -/
def aflStepH (fuel : Nat) (sourceContent : HVal) (fts rf : Bool)
    (rmap : List (String × String)) (resultAddr : Addr)
    (acc : Heap × FallbackInfo) (lang : String) : Heap × FallbackInfo :=
  let h := acc.1
  let fi := acc.2
  let translation := lookupA (h.entriesAt resultAddr) lang
  if missingOrEmptyH h translation then
    let sourceFb :=
      if fts then
        let p := h.alloc (spreadEntriesH h sourceContent)
        (p.1.updateAt resultAddr (setA (p.1.entriesAt resultAddr) lang (.ref p.2)),
         { fi with used := true,
                   languagesFallbackToSource := fi.languagesFallbackToSource ++ [lang] })
      else (h, fi)
    match regionalBase rf rmap lang with
    | some baseLang =>
        (match lookupA (h.entriesAt resultAddr) baseLang with
         | some bt =>
            if !bt.jsFalsy && !(hKeys h bt).isEmpty then
              let p := h.alloc (spreadEntriesH h bt)
              (p.1.updateAt resultAddr (setA (p.1.entriesAt resultAddr) lang (.ref p.2)),
               { fi with used := true,
                         regionalFallbacks := setA fi.regionalFallbacks lang baseLang })
            else sourceFb
         | none => sourceFb)
    | none => sourceFb
  else
    match translation with
    | some t =>
        if fts && t.isObjLike then
          let mk := findMissingKeysH fuel h sourceContent t ""
          if mk.isEmpty then (h, fi)
          else
            let h2 := mk.foldl (fillKeyH sourceContent rf rmap resultAddr lang t) h
            (h2, { fi with used := true, keysFallback := setA fi.keysFallback lang mk })
        else (h, fi)
    | none => (h, fi)

/-- Allocation of the fallbackInfo record as heap objects. -/
def FallbackInfo.allocH (h : Heap) (fi : FallbackInfo) : Heap × HVal :=
  let p1 := h.alloc (fi.regionalFallbacks.map fun p => (p.1, HVal.str p.2))
  let p2 := p1.1.alloc (fi.keysFallback.map fun p => (p.1, HVal.arr (p.2.map HVal.str)))
  let p3 := p2.1.alloc [("used", .bool fi.used),
    ("languagesFallbackToSource", .arr (fi.languagesFallbackToSource.map HVal.str)),
    ("regionalFallbacks", .ref p1.2),
    ("keysFallback", .ref p2.2)]
  (p3.1, .ref p3.2)

/-- Heap-model translation of applyFallbacks: the result set is the
object at resultAddr, mutated in place.  This model is the general
mutation semantics of the JavaScript; the list-valued applyFallbacks
above is its denotation whenever no Case-1 shallow copy is later
patched by Case 2 (in particular whenever targetLanguages repeats no
code). -/
def applyFallbacksHeap (fuel : Nat) (h : Heap) (resultAddr : Addr) (sourceContent : HVal)
    (targetLanguages : List String) (_sourceLanguage : String)
    (fallbackToSource regionalFallback : Bool) (regionalMap : List (String × String)) :
    Heap :=
  let p := targetLanguages.foldl
    (aflStepH fuel sourceContent fallbackToSource regionalFallback regionalMap resultAddr)
    (h, FallbackInfo.init)
  if p.2.used then
    let q := FallbackInfo.allocH p.1 p.2
    q.1.updateAt resultAddr (setA (q.1.entriesAt resultAddr) "fallbackInfo" q.2)
  else p.1

mutual

/-- Pure tree read back from the heap (fuel-bounded; any fuel at least
the node count of the tree is exact). -/
def readBackH : Nat → Heap → HVal → Option JValue
  | 0, _, _ => none
  | _ + 1, _, .null => some .null
  | _ + 1, _, .bool b => some (.bool b)
  | _ + 1, _, .num n => some (.num n)
  | _ + 1, _, .str s => some (.str s)
  | fuel + 1, h, .arr l => (readBackListH fuel h l).map JValue.arr
  | fuel + 1, h, .ref a => (readBackEntriesH fuel h (h.entriesAt a)).map JValue.obj

/-- Element list form of readBackH. -/
def readBackListH : Nat → Heap → List HVal → Option (List JValue)
  | _, _, [] => some []
  | 0, _, _ :: _ => none
  | fuel + 1, h, v :: rest =>
      match readBackH fuel h v, readBackListH fuel h rest with
      | some jv, some jrest => some (jv :: jrest)
      | _, _ => none

/-- Property list form of readBackH. -/
def readBackEntriesH : Nat → Heap → List (String × HVal) → Option (List (String × JValue))
  | _, _, [] => some []
  | 0, _, _ :: _ => none
  | fuel + 1, h, (k, v) :: rest =>
      match readBackH fuel h v, readBackEntriesH fuel h rest with
      | some jv, some jrest => some ((k, jv) :: jrest)
      | _, _ => none

end

/-- Initial heap of the aliasing scenario: the result object (address 0)
holds raw = {pt: {a: {}}} (addresses 1 and 2) and the source tree
{a: {x: "h"}} lives at addresses 3 and 4. -/
def aliasHeap0 : Heap :=
  ⟨[(0, [("pt", .ref 1)]), (1, [("a", .ref 2)]), (2, []),
    (3, [("a", .ref 4)]), (4, [("x", .str "h")])], 5⟩

/-- Final heap of the aliasing scenario: applyFallbacks run on the heap
model with targets [pt-BR, pt-BR], both fallbacks enabled and
regionalMap {pt-BR: pt}. -/
def aliasHeap1 : Heap :=
  applyFallbacksHeap 8 aliasHeap0 0 (.ref 3) ["pt-BR", "pt-BR"] "en" true true
    [("pt-BR", "pt")]

theorem lookupA_setA_self {α : Type} (m : List (String × α)) (k : String) (v : α) :
    lookupA (setA m k v) k = some v := by
  induction m with
  | nil => simp [setA, lookupA]
  | cons p rest ih =>
      rcases p with ⟨k1, v1⟩
      by_cases h : k1 = k <;> simp [setA, lookupA, h, ih]

theorem lookupA_setA_ne {α : Type} (m : List (String × α)) (key k : String) (v : α)
    (h : k ≠ key) : lookupA (setA m key v) k = lookupA m k := by
  have h2 : key ≠ k := Ne.symm h
  induction m with
  | nil => simp [setA, lookupA, h2]
  | cons p rest ih =>
      rcases p with ⟨k1, v1⟩
      by_cases h1 : k1 = key
      · subst h1
        simp [setA, lookupA, h2]
      · simp [setA, lookupA, h1, ih]

theorem setA_ne_nil {α : Type} (m : List (String × α)) (k : String) (v : α) :
    setA m k v ≠ [] := by
  cases m with
  | nil => simp [setA]
  | cons p rest =>
      rcases p with ⟨k1, v1⟩
      by_cases h : k1 = k <;> simp [setA, h]

/-- Claim C4 (counterexample): the digest input is an ambiguous
concatenation, so two requests that differ in both the source content
and the target-language sequence can feed the identical string to md5
and thus always obtain the identical cache key. -/
theorem cacheKey_counterexample :
    cacheKeyInput "a" ["bcd"] = cacheKeyInput "ab" ["cd"] ∧
      ("a", ["bcd"]) ≠ (("ab", ["cd"]) : String × List String) := by
  exact ⟨rfl, by simp⟩

/-- Claim C4 (amended): the derivation is deterministic, and with the
target-language sequence fixed it is injective in the source content:
the digest inputs agree exactly when the contents agree. -/
theorem cacheKeyInput_content_sensitive (c1 c2 : String) (T : List String) :
    cacheKeyInput c1 T = cacheKeyInput c2 T ↔ c1 = c2 := by
  constructor
  · intro h
    have h2 : c1.data ++ (String.intercalate "," T).data =
        c2.data ++ (String.intercalate "," T).data := by
      have := congrArg String.data h
      simpa [cacheKeyInput, String.data_append] using this
    have h3 : c1.data = c2.data := List.append_cancel_right h2
    cases c1; cases c2
    exact congrArg String.mk h3
  · intro h; rw [h]

/-- Claim C1 (counterexample): with the empty source tree and an empty
raw set, the reconciler maps the requested language to a defined but
EMPTY tree, so not every language ends up with a non-empty tree. -/
theorem applyFallbacks_empty_source_counterexample :
    lookupA (applyFallbacks [] (.obj []) ["es"] "en" true true []) "es" =
      some (.obj []) ∧ (JValue.obj []).entries = [] :=
  ⟨rfl, rfl⟩

/-- Claim C2 (counterexample): for source {a: {x: "h"}} and candidate
{a: "hello"}, walking the source's structure the position a.x is absent
from the candidate, yet findMissingKeys reports nothing (the walk stops
at a because the candidate value "hello" is not object-like). -/
theorem findMissingKeys_claim_criterion_counterexample :
    claimC2Missing (.obj [("a", .obj [("x", .str "h")])]) (.obj [("a", .str "hello")])
        ["a", "x"] = true ∧
      joinDots ["a", "x"] = "a.x" ∧
      findMissingKeys (.obj [("a", .obj [("x", .str "h")])]) (.obj [("a", .str "hello")]) "" = [] :=
  ⟨rfl, rfl, rfl⟩

/-- Claim C3 (counterexample): for source {a: {x: "h"}} and candidate
{a: ["y"]} the code DOES recurse into the array-valued candidate entry
and reports a.x, while the claim's recursion rule (candidate must be a
non-array object) would compare a as an opaque leaf and report
nothing. -/
theorem findMissingKeys_array_recursion_counterexample :
    findMissingKeys (.obj [("a", .obj [("x", .str "h")])]) (.obj [("a", .arr [.str "y"])]) ""
        = ["a.x"] ∧
      (missingPathsClaim (.obj [("a", .obj [("x", .str "h")])])
        (.obj [("a", .arr [.str "y"])])).map joinDots = [] ∧
      (["a.x"] : List String) ≠ [] :=
  ⟨rfl, rfl, by simp⟩

/-- Claim C5 (counterexample): a tree with an empty-string leaf reports
itself as missing that leaf, so missingKeys(S, S) is not always empty. -/
theorem findMissingKeys_self_counterexample :
    findMissingKeys (.obj [("a", .str "")]) (.obj [("a", .str "")]) "" = ["a"] ∧
      (["a"] : List String) ≠ [] :=
  ⟨rfl, by simp⟩

/-- Claim C6 (counterexample): a null value at an intermediate segment
is NOT overwritten (typeof null is 'object'), and the walk then throws a
TypeError instead of setting the leaf. -/
theorem setNestedValue_null_counterexample :
    setNestedValue (.obj [("a", JValue.null), ("s", .str "sib")]) "a.b" (.str "v") =
      .error .thrown :=
  rfl

/-- Claim C9 (counterexample): raw maps the only requested target pt-BR
to the empty tree, which has no missing keys relative to the empty
source, yet with fallbackToSource disabled the reconciler still rewrites
pt-BR from the regional base pt and attaches a fallbackInfo record. -/
theorem applyFallbacks_not_noop_counterexample :
    findMissingKeys (.obj []) (.obj []) "" = [] ∧
      lookupA (applyFallbacks [("pt-BR", .obj []), ("pt", .obj [("a", .str "1")])]
        (.obj []) ["pt-BR"] "en" false true [("pt-BR", "pt")]) "pt-BR" =
        some (.obj [("a", .str "1")]) ∧
      (lookupA (applyFallbacks [("pt-BR", .obj []), ("pt", .obj [("a", .str "1")])]
        (.obj []) ["pt-BR"] "en" false true [("pt-BR", "pt")]) "fallbackInfo").isSome = true ∧
      applyFallbacks [("pt-BR", .obj []), ("pt", .obj [("a", .str "1")])]
        (.obj []) ["pt-BR"] "en" false true [("pt-BR", "pt")] ≠
        [("pt-BR", .obj []), ("pt", .obj [("a", .str "1")])] := by
  refine ⟨rfl, rfl, rfl, ?_⟩
  intro h
  have h2 : lookupA (applyFallbacks [("pt-BR", .obj []), ("pt", .obj [("a", .str "1")])]
      (.obj []) ["pt-BR"] "en" false true [("pt-BR", "pt")]) "pt-BR" =
      some (.obj [("a", JValue.str "1")]) := rfl
  rw [h] at h2
  have h3 : lookupA [("pt-BR", JValue.obj []), ("pt", JValue.obj [("a", JValue.str "1")])]
      "pt-BR" = some (.obj []) := rfl
  rw [h3] at h2
  simp at h2

/-- Claim C3 (amended): the differ recurses into a key exactly when the
source value at it is a non-array object AND the candidate value is
object-like, i.e. a non-null object OR AN ARRAY; a source-side array is
never recursed into, but an array-valued candidate entry IS. -/
theorem findMissingEntries_recursion_rule (key : String) (sv : JValue)
    (rest : List (String × JValue)) (c : JValue) (pre : String) (tv : JValue)
    (h : jsGet c key = some tv) (hn : tv ≠ .null) (he : tv ≠ .str "") :
    findMissingEntries ((key, sv) :: rest) c pre =
      (if sv.isObjStrict && tv.isObjLike then findMissingKeys sv tv (fullKeyOf pre key)
       else []) ++ findMissingEntries rest c pre := by
  have h2 : tv.isNullOrEmptyStr = false := by
    cases tv <;> simp_all [JValue.isNullOrEmptyStr]
  simp only [findMissingEntries, h, h2]
  simp

/-- Witness for claim C3's amended theorem at a concrete input whose
candidate value is an array. -/
theorem findMissingEntries_recursion_rule_witness :
    findMissingEntries [("a", JValue.obj [("x", .str "h")]), ("b", .str "t")]
        (JValue.obj [("a", .arr [.str "y"]), ("b", .str "u")]) "" =
      (if (JValue.obj [("x", JValue.str "h")]).isObjStrict &&
          (JValue.arr [JValue.str "y"]).isObjLike then
        findMissingKeys (JValue.obj [("x", JValue.str "h")]) (JValue.arr [JValue.str "y"])
          (fullKeyOf "" "a")
       else []) ++
      findMissingEntries [("b", JValue.str "t")]
        (JValue.obj [("a", .arr [.str "y"]), ("b", .str "u")]) "" :=
  findMissingEntries_recursion_rule "a" (JValue.obj [("x", .str "h")])
    [("b", JValue.str "t")] (JValue.obj [("a", .arr [.str "y"]), ("b", .str "u")]) ""
    (JValue.arr [JValue.str "y"]) rfl (by simp) (by simp)

theorem prlStep_mem_mono (tl : List String) (rf : Bool)
    (acc : List String × List (String × String) × List String) (lang x : String)
    (hx : x ∈ acc.1) : x ∈ (prlStep tl rf acc lang).1 := by
  rcases acc with ⟨pts, rmap, added⟩
  simp only [prlStep]
  repeat' split
  all_goals simp_all

theorem prlStep_mem_self (tl : List String) (rf : Bool)
    (acc : List String × List (String × String) × List String) (lang : String) :
    lang ∈ (prlStep tl rf acc lang).1 := by
  rcases acc with ⟨pts, rmap, added⟩
  simp only [prlStep]
  repeat' split
  all_goals simp_all

theorem baseOf_no_dash (s : String) : hasDash (baseOf s) = false := by
  unfold hasDash baseOf
  by_contra h
  simp only [Bool.not_eq_false] at h
  have h2 : ('-' : Char) ∈ s.toList.takeWhile (fun c => decide (c ≠ '-')) := by
    have h4 : ('-' : Char) ∈ (String.mk (s.toList.takeWhile (fun c => decide (c ≠ '-')))).toList := by
      simpa using h
    simpa [String.toList] using h4
  have h3 := List.mem_takeWhile_imp h2
  simp at h3

theorem prlStep_inv (tl : List String) (rf : Bool)
    (acc : List String × List (String × String) × List String) (lang : String)
    (hin : lang ∈ tl) (h1 : acc.1.Nodup)
    (h2 : ∀ x ∈ acc.1, x ∈ tl ∨ x ∈ acc.2.2)
    (h3 : ∀ x ∈ acc.2.2, x ∈ acc.1) :
    (prlStep tl rf acc lang).1.Nodup ∧
      (∀ x ∈ (prlStep tl rf acc lang).1, x ∈ tl ∨ x ∈ (prlStep tl rf acc lang).2.2) ∧
      (∀ x ∈ (prlStep tl rf acc lang).2.2, x ∈ (prlStep tl rf acc lang).1) := by
  rcases acc with ⟨pts, rmap, added⟩
  have hbase : ∀ b, b ∉ added → b ∉ tl → b ∉ pts := by
    intro b hba hbt hbp
    rcases h2 b hbp with h | h
    · exact hbt h
    · exact hba h
  simp only [prlStep]
  repeat' split
  all_goals simp_all [List.nodup_append, List.disjoint_left]
  all_goals intros
  all_goals try tauto
  case mk.mk.isTrue.isTrue.isFalse h9 h10 h11 =>
    obtain ⟨hba, hbt⟩ := h10
    obtain ⟨hlp, hlb⟩ := h11
    have hbp : baseOf lang ∉ pts := hbase _ hba hbt
    refine ⟨⟨fun e => hlb e.symm, fun a ha => ⟨fun e => hbp (e ▸ ha), fun e => hlp (e ▸ ha)⟩⟩, ?_, ?_⟩
    · intro x hx
      rcases hx with h | h | h
      · rcases h2 x h with h | h
        · exact Or.inl h
        · exact Or.inr (Or.inl h)
      · exact Or.inr (Or.inr h)
      · subst h; exact Or.inl hin
    · intro x hx
      rcases hx with h | h
      · exact Or.inl (h3 x h)
      · exact Or.inr (Or.inl h)
  all_goals (rename_i hx; rcases hx with h | h)
  all_goals try exact h2 _ h
  all_goals exact h ▸ Or.inl hin

theorem prl_fold_inv (tl : List String) (rf : Bool) :
    ∀ (l : List String) (acc : List String × List (String × String) × List String),
      (∀ x ∈ l, x ∈ tl) → acc.1.Nodup →
      (∀ x ∈ acc.1, x ∈ tl ∨ x ∈ acc.2.2) → (∀ x ∈ acc.2.2, x ∈ acc.1) →
      (l.foldl (prlStep tl rf) acc).1.Nodup ∧
        (∀ x ∈ (l.foldl (prlStep tl rf) acc).1,
          x ∈ tl ∨ x ∈ (l.foldl (prlStep tl rf) acc).2.2) ∧
        (∀ x ∈ (l.foldl (prlStep tl rf) acc).2.2, x ∈ (l.foldl (prlStep tl rf) acc).1) := by
  intro l
  induction l with
  | nil => intro acc _ h1 h2 h3; exact ⟨h1, h2, h3⟩
  | cons lang rest ih =>
      intro acc hl h1 h2 h3
      simp only [List.foldl_cons]
      have hstep := prlStep_inv tl rf acc lang (hl lang (by simp)) h1 h2 h3
      exact ih _ (fun x hx => hl x (by simp [hx])) hstep.1 hstep.2.1 hstep.2.2

theorem prl_nodup_aux (tl : List String) (rf : Bool) :
    ((processRegionalLanguages tl rf).1).Nodup := by
  have h := prl_fold_inv tl rf tl ([], [], []) (fun x hx => hx)
    (by simp) (by simp) (by simp)
  simpa [processRegionalLanguages] using h.1

theorem prl_fold_mem_mono (tl : List String) (rf : Bool) :
    ∀ (l : List String) (acc : List String × List (String × String) × List String)
      (x : String), x ∈ acc.1 → x ∈ (l.foldl (prlStep tl rf) acc).1 := by
  intro l
  induction l with
  | nil => intro acc x hx; exact hx
  | cons lang rest ih =>
      intro acc x hx
      simp only [List.foldl_cons]
      exact ih _ x (prlStep_mem_mono tl rf acc lang x hx)

theorem prl_fold_mem_input (tl : List String) (rf : Bool) :
    ∀ (l : List String) (acc : List String × List (String × String) × List String)
      (x : String), x ∈ l → x ∈ (l.foldl (prlStep tl rf) acc).1 := by
  intro l
  induction l with
  | nil => intro acc x hx; simp at hx
  | cons lang rest ih =>
      intro acc x hx
      simp only [List.foldl_cons]
      rcases List.mem_cons.mp hx with h | h
      · subst h
        exact prl_fold_mem_mono tl rf rest _ x (prlStep_mem_self tl rf acc x)
      · exact ih _ x h

theorem prlStep_closure (tl : List String)
    (acc : List String × List (String × String) × List String) (lang : String)
    (h3 : ∀ x ∈ acc.2.2, x ∈ acc.1)
    (h4 : ∀ x ∈ acc.1, hasDash x = true → baseOf x ∈ acc.1 ∨ baseOf x ∈ tl) :
    (∀ x ∈ (prlStep tl true acc lang).2.2, x ∈ (prlStep tl true acc lang).1) ∧
      (∀ x ∈ (prlStep tl true acc lang).1, hasDash x = true →
        baseOf x ∈ (prlStep tl true acc lang).1 ∨ baseOf x ∈ tl) := by
  rcases acc with ⟨pts, rmap, added⟩
  simp only at h3 h4
  have hlift : ∀ (s : List String), (∀ x ∈ pts, hasDash x = true →
      baseOf x ∈ pts ++ s ∨ baseOf x ∈ tl) := by
    intro s x hx hdx
    rcases h4 x hx hdx with h | h
    · exact Or.inl (List.mem_append_left s h)
    · exact Or.inr h
  by_cases hd : hasDash lang = true
  · by_cases hb2 : (baseOf lang ∉ added ∧ baseOf lang ∉ tl)
    · have hr : prlStep tl true (pts, rmap, added) lang =
          (if lang ∈ pts ∨ lang = baseOf lang then
            (pts ++ [baseOf lang], setA rmap lang (baseOf lang), added ++ [baseOf lang])
           else (pts ++ [baseOf lang, lang], setA rmap lang (baseOf lang), added ++ [baseOf lang])) := by
        simp [prlStep, hd, hb2.1, hb2.2]
      by_cases hc : lang ∈ pts ∨ lang = baseOf lang
      · rw [hr, if_pos hc]
        refine ⟨?_, ?_⟩
        · intro x hx
          rcases List.mem_append.mp hx with h | h
          · exact List.mem_append_left _ (h3 x h)
          · exact List.mem_append_right _ h
        · intro x hx hdx
          rcases List.mem_append.mp hx with h | h
          · exact hlift _ x h hdx
          · simp only [List.mem_singleton] at h
            subst h
            rw [baseOf_no_dash] at hdx
            cases hdx
      · rw [hr, if_neg hc]
        refine ⟨?_, ?_⟩
        · intro x hx
          rcases List.mem_append.mp hx with h | h
          · exact List.mem_append_left _ (h3 x h)
          · simp only [List.mem_singleton] at h
            subst h
            exact List.mem_append_right _ (List.mem_cons_self _ _)
        · intro x hx hdx
          rcases List.mem_append.mp hx with h | h
          · exact hlift _ x h hdx
          · rcases List.mem_cons.mp h with h5 | h5
            · subst h5
              rw [baseOf_no_dash] at hdx
              cases hdx
            · simp only [List.mem_singleton] at h5
              subst h5
              exact Or.inl (List.mem_append_right _ (List.mem_cons_self _ _))
    · have hsplit : baseOf lang ∈ added ∨ baseOf lang ∈ tl := by
        by_contra hcon
        push_neg at hcon
        exact hb2 hcon
      have hbp : baseOf lang ∈ pts ∨ baseOf lang ∈ tl := by
        rcases hsplit with h | h
        · exact Or.inl (h3 _ h)
        · exact Or.inr h
      have hr : prlStep tl true (pts, rmap, added) lang =
          (if lang ∈ pts then (pts, setA rmap lang (baseOf lang), added)
           else (pts ++ [lang], setA rmap lang (baseOf lang), added)) := by
        rcases hsplit with h | h <;> simp [prlStep, hd, h]
      by_cases hc : lang ∈ pts
      · rw [hr, if_pos hc]
        exact ⟨h3, h4⟩
      · rw [hr, if_neg hc]
        refine ⟨?_, ?_⟩
        · intro x hx
          exact List.mem_append_left _ (h3 x hx)
        · intro x hx hdx
          rcases List.mem_append.mp hx with h | h
          · exact hlift _ x h hdx
          · simp only [List.mem_singleton] at h
            subst h
            rcases hbp with h | h
            · exact Or.inl (List.mem_append_left _ h)
            · exact Or.inr h
  · have hr : prlStep tl true (pts, rmap, added) lang =
        (if lang ∈ pts then (pts, rmap, added) else (pts ++ [lang], rmap, added)) := by
      simp [prlStep, hd]
    by_cases hc : lang ∈ pts
    · rw [hr, if_pos hc]
      exact ⟨h3, h4⟩
    · rw [hr, if_neg hc]
      refine ⟨?_, ?_⟩
      · intro x hx
        exact List.mem_append_left _ (h3 x hx)
      · intro x hx hdx
        rcases List.mem_append.mp hx with h | h
        · exact hlift _ x h hdx
        · simp only [List.mem_singleton] at h
          subst h
          exact absurd hdx hd

theorem prl_fold_closure (tl : List String) :
    ∀ (l : List String) (acc : List String × List (String × String) × List String),
      (∀ x ∈ acc.2.2, x ∈ acc.1) →
      (∀ x ∈ acc.1, hasDash x = true → baseOf x ∈ acc.1 ∨ baseOf x ∈ tl) →
      (∀ x ∈ (l.foldl (prlStep tl true) acc).1, hasDash x = true →
        baseOf x ∈ (l.foldl (prlStep tl true) acc).1 ∨ baseOf x ∈ tl) := by
  intro l
  induction l with
  | nil => intro acc _ h4; exact h4
  | cons lang rest ih =>
      intro acc h3 h4
      simp only [List.foldl_cons]
      have hstep := prlStep_closure tl acc lang h3 h4
      exact ih _ hstep.1 hstep.2

theorem prl_closure_aux (tl : List String) :
    ∀ x ∈ (processRegionalLanguages tl true).1, hasDash x = true →
      baseOf x ∈ (processRegionalLanguages tl true).1 := by
  intro x hx hdx
  have h := prl_fold_closure tl tl ([], [], []) (by simp) (by simp)
  have hx2 : x ∈ (tl.foldl (prlStep tl true) ([], [], [])).1 := by
    simpa [processRegionalLanguages] using hx
  rcases h x hx2 hdx with h5 | h5
  · simpa [processRegionalLanguages] using h5
  · have := prl_fold_mem_input tl true tl ([], [], []) (baseOf x) h5
    simpa [processRegionalLanguages] using this

theorem prl_closed_id_aux (y : List String) (hnd : y.Nodup)
    (hcl : ∀ l ∈ y, hasDash l = true → baseOf l ∈ y) :
    ∀ (todo done : List String) (rmap : List (String × String)) (added : List String),
      y = done ++ todo →
      (todo.foldl (prlStep y true) (done, rmap, added)).1 = done ++ todo := by
  intro todo
  induction todo with
  | nil => intro done rmap added hy; simp
  | cons lang todo2 ih =>
      intro done rmap added hy
      have hlang : lang ∈ y := by rw [hy]; simp
      have hnotdone : lang ∉ done := by
        intro hld
        rw [hy] at hnd
        have hdisj := (List.nodup_append.mp hnd).2.2
        exact hdisj hld (List.mem_cons_self _ _)
      have hstep : ∃ r2 a2, prlStep y true (done, rmap, added) lang = (done ++ [lang], r2, a2) := by
        by_cases hd : hasDash lang = true
        · have hbY : baseOf lang ∈ y := hcl lang hlang hd
          exact ⟨setA rmap lang (baseOf lang), added, by simp [prlStep, hd, hbY, hnotdone]⟩
        · exact ⟨rmap, added, by simp [prlStep, hd, hnotdone]⟩
      rcases hstep with ⟨r2, a2, hstep⟩
      simp only [List.foldl_cons, hstep]
      have hy2 : y = (done ++ [lang]) ++ todo2 := by rw [hy]; simp
      rw [ih (done ++ [lang]) r2 a2 hy2]
      simp

/-- Claim C8: for every input language list and both values of the
regional-fallback flag, the processedTargets sequence returned by
processRegionalLanguages contains no repeated entries; in particular a
shared base of several region-qualified codes appears exactly once. -/
theorem processRegionalLanguages_no_duplicates (tl : List String) (rf : Bool) :
    ((processRegionalLanguages tl rf).1).Nodup :=
  prl_nodup_aux tl rf

/-- Claim C7: expansion is idempotent: expanding the processedTargets of
a regional expansion again (with regional fallback enabled) returns the
same sequence. -/
theorem processRegionalLanguages_idempotent (x : List String) :
    (processRegionalLanguages ((processRegionalLanguages x true).1) true).1 =
      (processRegionalLanguages x true).1 := by
  have hnd := prl_nodup_aux x true
  have hcl := prl_closure_aux x
  have h := prl_closed_id_aux ((processRegionalLanguages x true).1) hnd hcl
    ((processRegionalLanguages x true).1) [] [] [] (by simp)
  simpa [processRegionalLanguages] using h

theorem lookupA_of_nodup (kvs : List (String × JValue)) (k : String) (v : JValue)
    (hnd : nodupKeys (kvs.map Prod.fst) = true) (hmem : (k, v) ∈ kvs) :
    lookupA kvs k = some v := by
  induction kvs with
  | nil => simp at hmem
  | cons p rest ih =>
      rcases p with ⟨k1, v1⟩
      have hnd2 : k1 ∉ rest.map Prod.fst ∧ nodupKeys (rest.map Prod.fst) = true := by
        simpa [nodupKeys] using hnd
      rcases List.mem_cons.mp hmem with h | h
      · obtain ⟨hk, hv⟩ := Prod.ext_iff.mp h
        simp only at hk hv
        subst hk; subst hv
        simp [lookupA]
      · by_cases hkk : k1 = k
        · exfalso
          apply hnd2.1
          rw [hkk]
          exact List.mem_map_of_mem Prod.fst h
        · simp [lookupA, hkk, ih hnd2.2 h]

theorem clean_of_mem (kvs : List (String × JValue)) (k : String) (v : JValue)
    (hcl : cleanEntries kvs = true) (hmem : (k, v) ∈ kvs) :
    v ≠ JValue.null ∧ v ≠ JValue.str "" ∧ cleanTree v = true := by
  induction kvs with
  | nil => simp at hmem
  | cons p rest ih =>
      rcases p with ⟨k1, v1⟩
      rcases List.mem_cons.mp hmem with h | h
      · obtain ⟨hk, hv⟩ := Prod.ext_iff.mp h
        simp only at hk hv
        subst hv
        cases v <;> simp_all [cleanEntries, cleanTree]
      · have hrest : cleanEntries rest = true := by
          cases v1 <;> simp_all [cleanEntries]
        exact ih hrest h

theorem fmk_self_aux (source translation : JValue) (pre : String) :
    source = translation → cleanTree source = true →
      findMissingKeys source translation pre = [] := by
  refine findMissingKeys.induct
    (fun source translation pre => source = translation → cleanTree source = true →
      findMissingKeys source translation pre = [])
    (fun entries translation pre => translation.isObjStrict = true →
      cleanTree translation = true → (∀ p ∈ entries, p ∈ translation.entries) →
      findMissingEntries entries translation pre = [])
    ?_ ?_ ?_ ?_ source translation pre
  · intro t pre2 es h2 heq hcl
    subst heq
    have := h2 rfl hcl (fun p hp => hp)
    simpa [findMissingKeys] using this
  · intro t tr pre2 hno heq hcl
    cases t <;> simp [findMissingKeys]
    exact absurd rfl (hno _)
  · intro t pre2 _ _ _
    simp [findMissingEntries]
  · intro key sv rest t pre2 fullKey ih1 ih2 hobj hcl hsub
    have hmem : (key, sv) ∈ t.entries := hsub _ (List.mem_cons_self _ _)
    obtain ⟨kvs, rfl⟩ : ∃ kvs, t = JValue.obj kvs := by
      cases t <;> simp_all [JValue.isObjStrict]
    have hcl2 : nodupKeys (kvs.map Prod.fst) = true ∧ cleanEntries kvs = true := by
      simpa [cleanTree] using hcl
    have hget : jsGet (JValue.obj kvs) key = some sv := by
      simpa [jsGet] using lookupA_of_nodup kvs key sv hcl2.1 (by simpa using hmem)
    have hclv := clean_of_mem kvs key sv hcl2.2 (by simpa using hmem)
    have hrest : findMissingEntries rest (JValue.obj kvs) pre2 = [] :=
      ih2 rfl hcl (fun p hp => hsub p (List.mem_cons_of_mem _ hp))
    simp only [findMissingEntries, hget, hrest]
    rcases hsv : sv with _ | b | n | s | l | kvs2 <;> simp_all [JValue.isNullOrEmptyStr]

/-- Claim C5 (amended): for every well-formed locale tree (no duplicate
keys at any object level) containing no null and no empty-string values,
the differ never reports the tree as missing anything from itself. -/
theorem findMissingKeys_self_clean (S : JValue) (_h1 : S.isObjStrict = true)
    (h2 : cleanTree S = true) : findMissingKeys S S "" = [] :=
  fmk_self_aux S S "" rfl h2

/-- Witness for claim C5's amended theorem. -/
theorem findMissingKeys_self_clean_witness :
    (JValue.obj [("greeting", .str "Hello"),
      ("nested", .obj [("k", .str "V")])]).isObjStrict = true ∧
    cleanTree (JValue.obj [("greeting", .str "Hello"),
      ("nested", .obj [("k", .str "V")])]) = true ∧
    findMissingKeys
      (JValue.obj [("greeting", .str "Hello"), ("nested", .obj [("k", .str "V")])])
      (JValue.obj [("greeting", .str "Hello"), ("nested", .obj [("k", .str "V")])]) "" = [] :=
  ⟨rfl, rfl, findMissingKeys_self_clean _ rfl rfl⟩

theorem missingPathsEntries_ne_nil :
    ∀ (entries : List (String × JValue)) (c : JValue) (p : List String),
      p ∈ missingPathsEntries entries c → p ≠ [] := by
  intro entries
  induction entries with
  | nil => simp [missingPathsEntries]
  | cons e rest ih =>
      rcases e with ⟨key, sv⟩
      intro c p hp
      simp only [missingPathsEntries] at hp
      rcases List.mem_append.mp hp with h | h
      · repeat' split at h
        all_goals (first
          | (simp only [List.mem_singleton] at h; subst h; simp)
          | (rcases List.mem_map.mp h with ⟨q, hq, rfl⟩; simp)
          | simp at h)
      · exact ih c p h

theorem joinDots_cons (k : String) (q : List String) (h : q ≠ []) :
    joinDots (k :: q) = k ++ "." ++ joinDots q := by
  cases q with
  | nil => exact absurd rfl h
  | cons a as => rfl

theorem str_append_dot_ne_empty (a b : String) : a ++ "." ++ b ≠ "" := by
  intro h
  have h2 := congrArg String.length h
  simp [String.length_append] at h2
  exact absurd h2.1.2 (by decide)

theorem fullKeyOf_ne_empty (pre key : String) (h : pre = "" → key ≠ "") :
    fullKeyOf pre key ≠ "" := by
  unfold fullKeyOf
  by_cases hp : pre = ""
  · simpa [hp] using h hp
  · simp only [if_neg hp]
    exact str_append_dot_ne_empty pre key

theorem preJoin_step (pre key : String) (q : List String) (hkey : pre = "" → key ≠ "")
    (hq : q ≠ []) : preJoin (fullKeyOf pre key) q = preJoin pre (key :: q) := by
  have hfk := fullKeyOf_ne_empty pre key hkey
  unfold preJoin
  rw [joinDots_cons key q hq]
  by_cases hp : pre = ""
  · subst hp
    simp [fullKeyOf, hfk, hkey rfl]
  · simp only [fullKeyOf, if_neg hp]
    rw [if_neg (str_append_dot_ne_empty pre key)]
    simp [String.append_assoc]

theorem fmk_paths_aux (source c : JValue) (pre : String) :
    (pre = "" → ∀ p ∈ source.entries, p.1 ≠ "") →
      findMissingKeys source c pre = (missingPaths source c).map (preJoin pre) := by
  refine findMissingKeys.induct
    (fun source c pre => (pre = "" → ∀ p ∈ source.entries, p.1 ≠ "") →
      findMissingKeys source c pre = (missingPaths source c).map (preJoin pre))
    (fun entries c pre => (pre = "" → ∀ p ∈ entries, p.1 ≠ "") →
      findMissingEntries entries c pre = (missingPathsEntries entries c).map (preJoin pre))
    ?_ ?_ ?_ ?_ source c pre
  · intro c2 pre2 es h2 hkeys
    simp only [findMissingKeys, missingPaths]
    exact h2 (by simpa [JValue.entries] using hkeys)
  · intro t c2 pre2 hno hkeys
    cases t <;> simp [findMissingKeys, missingPaths]
    exact absurd rfl (hno _)
  · intro c2 pre2 _
    simp [findMissingEntries, missingPathsEntries]
  · intro key sv rest c2 pre2 fullKey ih1 ih2 hkeys
    have hrest := ih2 (fun hp p hmem => hkeys hp p (List.mem_cons_of_mem _ hmem))
    have hkeyne : pre2 = "" → key ≠ "" :=
      fun hp => hkeys hp (key, sv) (List.mem_cons_self _ _)
    have hfk : fullKeyOf pre2 key ≠ "" := fullKeyOf_ne_empty pre2 key hkeyne
    have hjoin1 : preJoin pre2 [key] = fullKeyOf pre2 key := by
      unfold preJoin joinDots fullKeyOf
      by_cases hp : pre2 = "" <;> simp [hp]
    have hrec : ∀ tv : JValue, (sv.isObjStrict && tv.isObjLike) = true →
        findMissingKeys sv tv (fullKeyOf pre2 key) =
          ((missingPaths sv tv).map (key :: .)).map (preJoin pre2) := by
      intro tv hcond
      have h1 := ih1 tv (fun hfk2 => absurd hfk2 hfk)
      rw [h1, List.map_map]
      refine List.map_congr_left ?_
      intro q hq
      have hsvobj : ∃ svE, sv = JValue.obj svE := by
        cases sv <;> simp_all [JValue.isObjStrict]
      rcases hsvobj with ⟨svE, rfl⟩
      have hqne : q ≠ [] := missingPathsEntries_ne_nil svE tv q (by simpa [missingPaths] using hq)
      exact preJoin_step pre2 key q hkeyne hqne
    simp only [findMissingEntries, missingPathsEntries]
    rcases hjs : jsGet c2 key with _ | tv
    · simp [hrest, hjoin1]
    · cases hnes : tv.isNullOrEmptyStr
      · by_cases hcond : sv.isObjStrict = true ∧ tv.isObjLike = true
        · have hcondb : (sv.isObjStrict && tv.isObjLike) = true := by
            simp [hcond.1, hcond.2]
          simp [hnes, hrest, hrec tv hcondb, hcond]
        · simp [hnes, hrest, hcond]
      · simp [hnes, hrest, hjoin1]

/-- Claim C2 (amended): for locale trees without empty top-level keys,
findMissingKeys reports exactly the dotted joins of the key-paths that
are missing along the differ's walk: a path is reported when every
proper ancestor position holds a non-array object in the source and an
object-like (object or array) value in the candidate, and the path's
own candidate position is absent, null, or the empty string; any other
present value (0, false, an empty array) is never reported. -/
theorem findMissingKeys_reports_walk_missing (S C : JValue)
    (hk : ∀ p ∈ S.entries, p.1 ≠ "") :
    findMissingKeys S C "" = (missingPaths S C).map joinDots := by
  have h := fmk_paths_aux S C "" (fun _ => hk)
  have h2 : (missingPaths S C).map (preJoin "") = (missingPaths S C).map joinDots := by
    refine List.map_congr_left ?_
    intro q _
    simp [preJoin]
  rw [h, h2]

/-- Witness for claim C2's amended theorem: null and absent positions
are reported (deepest first along the walk), while a present 0 is not. -/
theorem findMissingKeys_reports_walk_missing_witness :
    findMissingKeys
        (.obj [("a", .obj [("x", .str "h"), ("y", .str "g")]), ("b", .str "B"), ("c", .num 0)])
        (.obj [("a", .obj [("x", JValue.null)]), ("c", .num 0)]) "" =
      (missingPaths
        (.obj [("a", .obj [("x", .str "h"), ("y", .str "g")]), ("b", .str "B"), ("c", .num 0)])
        (.obj [("a", .obj [("x", JValue.null)]), ("c", .num 0)])).map joinDots :=
  findMissingKeys_reports_walk_missing _ _ (by
    intro p hp
    simp [JValue.entries] at hp
    rcases hp with h | h | h <;> subst h <;> simp)

theorem setSegs_null_err (r : List String) (hr : r ≠ []) (v : JValue) :
    setSegs JValue.null r v = .error .thrown := by
  cases r with
  | nil => exact absurd rfl hr
  | cons a as =>
      cases as with
      | nil => rfl
      | cons b bs => rfl

theorem noArrRoute_emptyObj (segs : List String) : noArrRoute (.obj []) segs = true := by
  cases segs with
  | nil => rfl
  | cons a as =>
      cases as with
      | nil => rfl
      | cons b bs => simp [noArrRoute, lookupA]

theorem getPathSegs_emptyObj (segs : List String) (h : segs ≠ []) :
    getPathSegs (.obj []) segs = none := by
  cases segs with
  | nil => exact absurd rfl h
  | cons a as => simp [getPathSegs, jsGet, lookupA, JValue.isObjLike]

theorem getPathSegs_not_objlike (v : JValue) (h : v.isObjLike = false) (p : List String)
    (hp : p ≠ []) : getPathSegs v p = none := by
  cases p with
  | nil => exact absurd rfl hp
  | cons a as => simp [getPathSegs, h]

theorem getPathSegs_obj_single (m : List (String × JValue)) (k : String) :
    getPathSegs (.obj m) [k] = lookupA m k := by
  cases hlk : lookupA m k <;> simp [getPathSegs, jsGet, JValue.isObjLike, hlk]

theorem getPathSegs_obj_cons (m : List (String × JValue)) (k : String) (rest : List String) :
    getPathSegs (.obj m) (k :: rest) =
      (match lookupA m k with
       | some c => getPathSegs c rest
       | none => none) := by
  simp [getPathSegs, jsGet, JValue.isObjLike]

theorem setSegs_obj_conclusion (kvs : List (String × JValue)) (key b : String)
    (bs : List String) (child c2 v : JValue)
    (hleaf : getPathSegs c2 (b :: bs) = some v)
    (hframe : ∀ (pfx : List String) (k2 : String) (tl : List String) (k : String),
      b :: bs = pfx ++ k2 :: tl → k ≠ k2 →
      getPathSegs c2 (pfx ++ [k]) = getPathSegs child (pfx ++ [k]))
    (hcompat : ∀ (q : List String), q ≠ [] →
      getPathSegs child q = getPathSegs (JValue.obj kvs) (key :: q)) :
    getPathSegs (.obj (setA kvs key c2)) (key :: b :: bs) = some v ∧
      (∀ (pfx : List String) (k2 : String) (tl : List String) (k : String),
        key :: b :: bs = pfx ++ k2 :: tl → k ≠ k2 →
        getPathSegs (.obj (setA kvs key c2)) (pfx ++ [k]) =
          getPathSegs (.obj kvs) (pfx ++ [k])) := by
  constructor
  · rw [getPathSegs_obj_cons, lookupA_setA_self]
    exact hleaf
  · intro pfx k2 tl k hsegs hk
    cases pfx with
    | nil =>
        simp only [List.nil_append, List.cons.injEq] at hsegs
        obtain ⟨hk2, _⟩ := hsegs
        subst hk2
        simp only [List.nil_append]
        rw [getPathSegs_obj_single, getPathSegs_obj_single,
          lookupA_setA_ne kvs key k c2 hk]
    | cons a as =>
        simp only [List.cons_append, List.cons.injEq] at hsegs
        obtain ⟨ha, hrest2⟩ := hsegs
        subst ha
        have h1 : getPathSegs (JValue.obj (setA kvs key c2)) (key :: (as ++ [k])) =
            getPathSegs c2 (as ++ [k]) := by
          rw [getPathSegs_obj_cons, lookupA_setA_self]
        rw [List.cons_append, h1, hframe as k2 tl k hrest2 hk,
          hcompat (as ++ [k]) (by simp)]

/-- Claim C6 (amended): along a path that meets no array node,
setNestedValue's walk either throws (null at an intermediate or final
position is NOT overwritten, since typeof null is 'object') or succeeds;
whenever it succeeds it has created intermediate objects as needed
(overwriting values whose typeof is not 'object'), set the leaf at the
final segment, and left every sibling key at every level unchanged. -/
theorem setSegs_sets_leaf_preserves_siblings :
    ∀ (segs : List String) (tree t2 v : JValue), segs ≠ [] →
      noArrRoute tree segs = true → setSegs tree segs v = .ok t2 →
      getPathSegs t2 segs = some v ∧
        (∀ (pfx : List String) (k2 : String) (tl : List String) (k : String),
          segs = pfx ++ k2 :: tl → k ≠ k2 →
          getPathSegs t2 (pfx ++ [k]) = getPathSegs tree (pfx ++ [k])) := by
  intro segs
  induction segs with
  | nil => intro tree t2 v h; exact absurd rfl h
  | cons key rest ih =>
      intro tree t2 v _ hnoarr hok
      cases rest with
      | nil =>
          cases tree with
          | obj kvs =>
              have ht2 : t2 = .obj (setA kvs key v) := by
                have h0 : Except.ok (ε := SetErr) (JValue.obj (setA kvs key v)) = .ok t2 := by
                  simpa [setSegs, setFinal] using hok
                simpa using h0.symm
              subst ht2
              constructor
              · rw [getPathSegs_obj_cons, lookupA_setA_self]
                rfl
              · intro pfx k2 tl k hsegs hk
                cases pfx with
                | nil =>
                    simp only [List.nil_append, List.cons.injEq] at hsegs
                    obtain ⟨hk2, _⟩ := hsegs
                    subst hk2
                    simp only [List.nil_append]
                    rw [getPathSegs_obj_single, getPathSegs_obj_single,
                      lookupA_setA_ne kvs key k v hk]
                | cons a as => simp at hsegs
          | arr l => simp [noArrRoute] at hnoarr
          | null => simp [setSegs, setFinal] at hok
          | bool b => simp [setSegs, setFinal] at hok
          | num n => simp [setSegs, setFinal] at hok
          | str s => simp [setSegs, setFinal] at hok
      | cons b bs =>
          cases tree with
          | arr l => simp [noArrRoute] at hnoarr
          | null => rw [setSegs_null_err (key :: b :: bs) (by simp) v] at hok; cases hok
          | bool b0 => simp [setSegs] at hok
          | num n0 => simp [setSegs] at hok
          | str s0 => simp [setSegs] at hok
          | obj kvs =>
              simp only [setSegs] at hok
              cases hlk : lookupA kvs key with
              | none =>
                  rw [hlk] at hok
                  simp only at hok
                  cases hres : setSegs (JValue.obj []) (b :: bs) v with
                  | error e => rw [hres] at hok; cases hok
                  | ok c2 =>
                      rw [hres] at hok
                      simp only [Except.ok.injEq] at hok
                      subst hok
                      have hchild := ih (JValue.obj []) c2 v (by simp)
                        (noArrRoute_emptyObj (b :: bs)) hres
                      refine setSegs_obj_conclusion kvs key b bs (JValue.obj []) c2 v
                        hchild.1 hchild.2 ?_
                      intro q hq
                      rw [getPathSegs_emptyObj q hq, getPathSegs_obj_cons, hlk]
              | some c =>
                  rw [hlk] at hok
                  simp only at hok
                  by_cases hto : c.typeofObject = true
                  · rw [if_pos hto] at hok
                    cases c with
                    | arr l2 =>
                        exfalso
                        have h5 : noArrRoute (JValue.arr l2) (b :: bs) = true := by
                          simp only [noArrRoute, hlk] at hnoarr
                          exact hnoarr
                        simp [noArrRoute] at h5
                    | null =>
                        rw [setSegs_null_err (b :: bs) (by simp) v] at hok
                        cases hok
                    | obj ce =>
                        cases hres : setSegs (JValue.obj ce) (b :: bs) v with
                        | error e => rw [hres] at hok; cases hok
                        | ok c2 =>
                            rw [hres] at hok
                            simp only [Except.ok.injEq] at hok
                            subst hok
                            have hnoarr2 : noArrRoute (JValue.obj ce) (b :: bs) = true := by
                              simpa [noArrRoute, hlk] using hnoarr
                            have hchild := ih (JValue.obj ce) c2 v (by simp) hnoarr2 hres
                            refine setSegs_obj_conclusion kvs key b bs (JValue.obj ce) c2 v
                              hchild.1 hchild.2 ?_
                            intro q hq
                            rw [getPathSegs_obj_cons, hlk]
                    | bool b2 => simp [JValue.typeofObject] at hto
                    | num n2 => simp [JValue.typeofObject] at hto
                    | str s2 => simp [JValue.typeofObject] at hto
                  · rw [if_neg hto] at hok
                    cases hres : setSegs (JValue.obj []) (b :: bs) v with
                    | error e => rw [hres] at hok; cases hok
                    | ok c2 =>
                        rw [hres] at hok
                        simp only [Except.ok.injEq] at hok
                        subst hok
                        have hchild := ih (JValue.obj []) c2 v (by simp)
                          (noArrRoute_emptyObj (b :: bs)) hres
                        refine setSegs_obj_conclusion kvs key b bs (JValue.obj []) c2 v
                          hchild.1 hchild.2 ?_
                        intro q hq
                        have hnol : c.isObjLike = false := by
                          cases c <;> simp_all [JValue.typeofObject, JValue.isObjLike]
                        rw [getPathSegs_emptyObj q hq, getPathSegs_obj_cons, hlk]
                        exact (getPathSegs_not_objlike c hnol q hq).symm

/-- Witness for claim C6's amended theorem: a primitive intermediate is
overwritten by a fresh object, the leaf is set, and the sibling key s
keeps its value. -/
theorem setSegs_sets_leaf_preserves_siblings_witness :
    getPathSegs
        (JValue.obj [("x", .obj [("y", .str "deep")]), ("s", .str "keep")]) ["x", "y"] =
      some (.str "deep") ∧
    getPathSegs
        (JValue.obj [("x", .obj [("y", .str "deep")]), ("s", .str "keep")]) ["s"] =
      getPathSegs (JValue.obj [("x", .num 5), ("s", .str "keep")]) ["s"] := by
  have h := setSegs_sets_leaf_preserves_siblings ["x", "y"]
    (JValue.obj [("x", .num 5), ("s", .str "keep")])
    (JValue.obj [("x", .obj [("y", .str "deep")]), ("s", .str "keep")])
    (.str "deep") (by simp) rfl rfl
  exact ⟨h.1, h.2 [] "x" ["y"] "s" rfl (by simp)⟩

theorem lookupA_mem {α : Type} (m : List (String × α)) (k : String) (v : α)
    (h : lookupA m k = some v) : (k, v) ∈ m := by
  induction m with
  | nil => simp [lookupA] at h
  | cons p rest ih =>
      rcases p with ⟨k1, v1⟩
      by_cases hk : k1 = k
      · subst hk
        simp [lookupA] at h
        subst h
        exact List.mem_cons_self _ _
      · simp [lookupA, hk] at h
        exact List.mem_cons_of_mem _ (ih h)

theorem aflStep_fst_lookup_ne (S : JValue) (fts rf : Bool) (rmap : List (String × String))
    (acc : List (String × JValue) × FallbackInfo) (lang k : String) (hk : k ≠ lang) :
    lookupA (aflStep S fts rf rmap acc lang).1 k = lookupA acc.1 k := by
  rcases acc with ⟨result, fi⟩
  simp only [aflStep]
  repeat' split
  all_goals simp [lookupA_setA_ne _ lang k _ hk]

theorem afl_fold_lookup_ne (S : JValue) (fts rf : Bool) (rmap : List (String × String)) :
    ∀ (T : List String) (acc : List (String × JValue) × FallbackInfo) (k : String),
      k ∉ T → lookupA (T.foldl (aflStep S fts rf rmap) acc).1 k = lookupA acc.1 k := by
  intro T
  induction T with
  | nil => intro acc k _; rfl
  | cons lang rest ih =>
      intro acc k hk
      simp only [List.foldl_cons]
      rw [ih _ k (fun h => hk (List.mem_cons_of_mem _ h))]
      exact aflStep_fst_lookup_ne S fts rf rmap acc lang k
        (fun h => hk (h ▸ List.mem_cons_self _ _))

/-- Claim C10 (counterexample, on the mutation-aware heap model): with
targets [pt-BR, pt-BR], raw = {pt: {a: {}}}, source = {a: {x: "h"}} and
regionalMap {pt-BR: pt}, the first iteration installs the shallow copy
{...result.pt} for pt-BR, and the second iteration's
setNestedValue(translation, "a.x", "h") writes through the shared
nested object, so the NON-requested language pt ends as {a: {x: "h"}},
not its original raw tree {a: {}}. -/
theorem applyFallbacks_aliasing_counterexample :
    readBackH 8 aliasHeap0 (.ref 1) = some (.obj [("a", .obj [])]) ∧
      lookupA (aliasHeap1.entriesAt 0) "pt" = some (.ref 1) ∧
      readBackH 8 aliasHeap1 (.ref 1) = some (.obj [("a", .obj [("x", .str "h")])]) ∧
      ("pt" ∉ (["pt-BR", "pt-BR"] : List String) ∧ "pt" ≠ "fallbackInfo") ∧
      (some (JValue.obj [("a", .obj [])]) ≠
        some (JValue.obj [("a", .obj [("x", .str "h")])])) :=
  ⟨rfl, rfl, rfl, by simp, by simp⟩

/-- Claim C10 (amended): provided no language code repeats in the
requested target list, the reconciler never removes or rewrites entries
for languages outside it: any language present in raw but not requested
(and distinct from the reserved fallbackInfo key, which the spec
excludes from language codes) keeps its original raw tree in the
result.  Under the no-repeat hypothesis no Case-1 shallow copy is ever
patched, so the JavaScript writes only into requested entries and their
own (unshared) raw trees, and the list model used here is the exact
denotation of the code on the entries this statement reads; the
counterexample above shows the repeated-target case really mutates a
non-requested tree through sharing. -/
theorem applyFallbacks_preserves_other_languages (raw : List (String × JValue))
    (S : JValue) (T : List String) (sl : String) (fts rf : Bool)
    (rmap : List (String × String)) (lang : String) (_hnd : T.Nodup)
    (h1 : lang ∉ T) (h2 : lang ≠ "fallbackInfo") :
    lookupA (applyFallbacks raw S T sl fts rf rmap) lang = lookupA raw lang := by
  have hfold := afl_fold_lookup_ne S fts rf rmap T (raw, FallbackInfo.init) lang h1
  simp only [applyFallbacks]
  split
  · rw [lookupA_setA_ne _ "fallbackInfo" lang _ h2]
    exact hfold
  · exact hfold

/-- Witness for claim C10's amended theorem: a base language synthesized
by the expander (pt, absent from the duplicate-free requested list)
keeps its raw tree. -/
theorem applyFallbacks_preserves_other_languages_witness :
    lookupA (applyFallbacks
        [("pt", .obj [("greeting", .str "Ola")]), ("pt-BR", .obj [])]
        (.obj [("greeting", .str "Hello")]) ["pt-BR"] "en" true true
        [("pt-BR", "pt")]) "pt" =
      lookupA [("pt", JValue.obj [("greeting", .str "Ola")]), ("pt-BR", JValue.obj [])] "pt" :=
  applyFallbacks_preserves_other_languages _ _ _ _ _ _ _ "pt" (by simp) (by simp) (by simp)

theorem aflStep_skip (S : JValue) (rf : Bool) (rmap : List (String × String))
    (result : List (String × JValue)) (fi : FallbackInfo) (lang : String)
    (kvs : List (String × JValue)) (hlk : lookupA result lang = some (JValue.obj kvs))
    (hne : kvs ≠ []) : aflStep S false rf rmap (result, fi) lang = (result, fi) := by
  have hmoe : missingOrEmpty (some (JValue.obj kvs)) = false := by
    simp [missingOrEmpty, JValue.jsFalsy, jsKeys, hne]
  simp [aflStep, hlk, hmoe]

theorem afl_fold_noop (S : JValue) (rf : Bool) (rmap : List (String × String)) :
    ∀ (T : List String) (raw : List (String × JValue)) (fi : FallbackInfo),
      (∀ lang ∈ T, ∃ kvs, lookupA raw lang = some (JValue.obj kvs) ∧ kvs ≠ []) →
      T.foldl (aflStep S false rf rmap) (raw, fi) = (raw, fi) := by
  intro T
  induction T with
  | nil => intro raw fi _; rfl
  | cons lang rest ih =>
      intro raw fi hT
      obtain ⟨kvs, hlk, hne⟩ := hT lang (List.mem_cons_self _ _)
      simp only [List.foldl_cons, aflStep_skip S rf rmap raw fi lang kvs hlk hne]
      exact ih raw fi (fun l hl => hT l (List.mem_cons_of_mem _ hl))

/-- Claim C9 (amended): if raw maps every requested target language to
a NON-EMPTY tree with no missing keys relative to the source, then the
reconciler with fallbackToSource disabled returns the set unchanged and
attaches no fallbackInfo record, for every regional-fallback flag and
regional map. -/
theorem applyFallbacks_noop_when_complete (raw : List (String × JValue)) (S : JValue)
    (T : List String) (sl : String) (rf : Bool) (rmap : List (String × String))
    (hT : ∀ lang ∈ T, ∃ kvs, lookupA raw lang = some (JValue.obj kvs) ∧ kvs ≠ [] ∧
      findMissingKeys S (JValue.obj kvs) "" = [])
    (hfb : lookupA raw "fallbackInfo" = none) :
    applyFallbacks raw S T sl false rf rmap = raw ∧
      lookupA (applyFallbacks raw S T sl false rf rmap) "fallbackInfo" = none := by
  have hfold := afl_fold_noop S rf rmap T raw FallbackInfo.init
    (fun l hl => (hT l hl).elim (fun kvs h => ⟨kvs, h.1, h.2.1⟩))
  have hres : applyFallbacks raw S T sl false rf rmap = raw := by
    simp only [applyFallbacks]
    rw [hfold]
    rfl
  exact ⟨hres, by rw [hres]; exact hfb⟩

/-- Witness for claim C9's amended theorem. -/
theorem applyFallbacks_noop_when_complete_witness :
    applyFallbacks [("es", .obj [("greeting", .str "Hola")])]
        (.obj [("greeting", .str "Hello")]) ["es"] "en" false true [("pt-BR", "pt")] =
      [("es", .obj [("greeting", .str "Hola")])] ∧
    lookupA (applyFallbacks [("es", .obj [("greeting", .str "Hola")])]
        (.obj [("greeting", .str "Hello")]) ["es"] "en" false true [("pt-BR", "pt")])
      "fallbackInfo" = none := by
  refine applyFallbacks_noop_when_complete _ _ _ _ _ _ ?_ rfl
  intro lang hl
  simp only [List.mem_singleton] at hl
  subst hl
  exact ⟨[("greeting", .str "Hola")], rfl, by simp, rfl⟩

theorem setA_forall {α : Type} (P : α → Prop) (m : List (String × α)) (k : String) (v : α)
    (hm : ∀ p ∈ m, P p.2) (hv : P v) : ∀ p ∈ setA m k v, P p.2 := by
  induction m with
  | nil => intro p hp; simp [setA] at hp; subst hp; exact hv
  | cons q rest ih =>
      rcases q with ⟨k1, v1⟩
      intro p hp
      by_cases hk : k1 = k
      · simp only [setA, if_pos hk] at hp
        rcases List.mem_cons.mp hp with h | h
        · subst h; exact hv
        · exact hm p (List.mem_cons_of_mem _ h)
      · simp only [setA, if_neg hk] at hp
        rcases List.mem_cons.mp hp with h | h
        · subst h; exact hm _ (List.mem_cons_self _ _)
        · exact ih (fun q hq => hm q (List.mem_cons_of_mem _ hq)) p h

theorem setSegs_obj_out :
    ∀ (segs : List String) (kvs : List (String × JValue)) (v t2 : JValue),
      setSegs (.obj kvs) segs v = .ok t2 →
      ∃ kvs2, t2 = .obj kvs2 ∧ (kvs ≠ [] → kvs2 ≠ []) := by
  intro segs kvs v t2 hok
  cases segs with
  | nil =>
      simp only [setSegs, Except.ok.injEq] at hok
      exact ⟨kvs, hok.symm, fun h => h⟩
  | cons key rest =>
      cases rest with
      | nil =>
          simp only [setSegs, setFinal, Except.ok.injEq] at hok
          exact ⟨setA kvs key v, hok.symm, fun _ => setA_ne_nil kvs key v⟩
      | cons b bs =>
          simp only [setSegs] at hok
          split at hok
          · simp only [Except.ok.injEq] at hok
            exact ⟨setA kvs key _, hok.symm, fun _ => setA_ne_nil _ _ _⟩
          · cases hok

theorem setApply_obj (path : String) (v : JValue) (kvs : List (String × JValue)) :
    ∃ kvs2, setApply (.obj kvs) path v = .obj kvs2 ∧ (kvs ≠ [] → kvs2 ≠ []) := by
  unfold setApply setNestedValue
  cases hres : setSegs (.obj kvs) (splitDots path) v with
  | ok t2 =>
      obtain ⟨kvs2, ht2, hne⟩ := setSegs_obj_out _ kvs v t2 hres
      exact ⟨kvs2, by simp [ht2], hne⟩
  | error e => exact ⟨kvs, by simp, fun h => h⟩

theorem fillKey_obj (S : JValue) (rf : Bool) (rmap : List (String × String))
    (result : List (String × JValue)) (lang key : String) (kvs : List (String × JValue)) :
    ∃ kvs2, fillKey S rf rmap result lang (.obj kvs) key = .obj kvs2 ∧
      (kvs ≠ [] → kvs2 ≠ []) := by
  unfold fillKey
  simp only
  repeat' split
  all_goals first
    | exact setApply_obj key _ kvs
    | exact ⟨kvs, rfl, fun h => h⟩

theorem fillKeys_fold_obj (S : JValue) (rf : Bool) (rmap : List (String × String))
    (result : List (String × JValue)) (lang : String) :
    ∀ (keys : List String) (kvs : List (String × JValue)),
      ∃ kvs2, keys.foldl (fillKey S rf rmap result lang) (.obj kvs) = .obj kvs2 ∧
        (kvs ≠ [] → kvs2 ≠ []) := by
  intro keys
  induction keys with
  | nil => intro kvs; exact ⟨kvs, rfl, fun h => h⟩
  | cons k ks ih =>
      intro kvs
      simp only [List.foldl_cons]
      obtain ⟨kvs2, h1, h2⟩ := fillKey_obj S rf rmap result lang k kvs
      rw [h1]
      obtain ⟨kvs3, h3, h4⟩ := ih kvs2
      exact ⟨kvs3, h3, fun h => h4 (h2 h)⟩

theorem regionalBase_empty (rf : Bool) (lang : String) : regionalBase rf [] lang = none := by
  cases rf <;> simp [regionalBase, lookupA]

theorem spreadToObj_isObj (v : JValue) : (spreadToObj v).isObjStrict = true := by
  cases v <;> simp [spreadToObj, JValue.isObjStrict]

theorem aflStep_allobj (S : JValue) (acc : List (String × JValue) × FallbackInfo)
    (lang : String) (hacc : ∀ p ∈ acc.1, p.2.isObjStrict = true) :
    ∀ p ∈ (aflStep S true true [] acc lang).1, p.2.isObjStrict = true := by
  rcases acc with ⟨result, fi⟩
  simp only at hacc
  simp only [aflStep, regionalBase_empty]
  split
  · exact setA_forall (fun v => v.isObjStrict = true) result lang _ hacc (spreadToObj_isObj S)
  · split
    · rename_i t heq
      have htobj : t.isObjStrict = true := hacc (lang, t) (lookupA_mem result lang t heq)
      obtain ⟨kvs, rfl⟩ : ∃ kvs, t = JValue.obj kvs := by
        cases t <;> simp_all [JValue.isObjStrict]
      split
      · split
        · exact hacc
        · obtain ⟨kvs2, hfold, _⟩ :=
            fillKeys_fold_obj S true [] result lang (findMissingKeys S (JValue.obj kvs) "") kvs
          simp only [hfold]
          exact setA_forall (fun v => v.isObjStrict = true) result lang (JValue.obj kvs2)
            hacc (by simp [JValue.isObjStrict])
      · exact hacc
    · exact hacc

theorem aflStep_establishes (S : JValue) (SE : List (String × JValue))
    (hS : S = .obj SE) (acc : List (String × JValue) × FallbackInfo) (lang : String)
    (hacc : ∀ p ∈ acc.1, p.2.isObjStrict = true) :
    ∃ kvs, lookupA (aflStep S true true [] acc lang).1 lang = some (JValue.obj kvs) ∧
      (SE ≠ [] → kvs ≠ []) := by
  rcases acc with ⟨result, fi⟩
  simp only at hacc
  simp only [aflStep, regionalBase_empty]
  split
  · subst hS
    refine ⟨SE, ?_, fun h => h⟩
    simpa [spreadToObj] using lookupA_setA_self result lang (spreadToObj (JValue.obj SE))
  · split
    · rename_i hmoe x t heq
      have htobj : t.isObjStrict = true := hacc (lang, t) (lookupA_mem result lang t heq)
      obtain ⟨kvs, rfl⟩ : ∃ kvs, t = JValue.obj kvs := by
        cases t <;> simp_all [JValue.isObjStrict]
      have hkne : kvs ≠ [] := by
        intro hnil
        subst hnil
        apply hmoe
        rw [heq]
        rfl
      split
      · split
        · exact ⟨kvs, heq, fun _ => hkne⟩
        · obtain ⟨kvs2, hfold, hne2⟩ :=
            fillKeys_fold_obj S true [] result lang (findMissingKeys S (JValue.obj kvs) "") kvs
          refine ⟨kvs2, ?_, fun _ => hne2 hkne⟩
          simp only [hfold]
          exact lookupA_setA_self result lang (JValue.obj kvs2)
      · exact ⟨kvs, heq, fun _ => hkne⟩
    · rename_i hmoe x hnone
      exfalso
      exact hmoe (by rw [hnone]; rfl)

theorem afl_fold_allobj (S : JValue) :
    ∀ (T : List String) (acc : List (String × JValue) × FallbackInfo),
      (∀ p ∈ acc.1, p.2.isObjStrict = true) →
      ∀ p ∈ (T.foldl (aflStep S true true []) acc).1, p.2.isObjStrict = true := by
  intro T
  induction T with
  | nil => intro acc h; exact h
  | cons lang rest ih =>
      intro acc h
      simp only [List.foldl_cons]
      exact ih _ (aflStep_allobj S acc lang h)

theorem afl_fold_establishes (S : JValue) (SE : List (String × JValue)) (hS : S = .obj SE) :
    ∀ (T : List String) (acc : List (String × JValue) × FallbackInfo) (lang : String),
      (∀ p ∈ acc.1, p.2.isObjStrict = true) →
      (∃ kvs, lookupA acc.1 lang = some (JValue.obj kvs) ∧ (SE ≠ [] → kvs ≠ [])) →
      ∃ kvs, lookupA (T.foldl (aflStep S true true []) acc).1 lang =
        some (JValue.obj kvs) ∧ (SE ≠ [] → kvs ≠ []) := by
  intro T
  induction T with
  | nil => intro acc lang _ h; exact h
  | cons lang2 rest ih =>
      intro acc lang hacc hgood
      simp only [List.foldl_cons]
      by_cases heq : lang = lang2
      · subst heq
        exact ih _ lang (aflStep_allobj S acc lang hacc)
          (aflStep_establishes S SE hS acc lang hacc)
      · refine ih _ lang (aflStep_allobj S acc lang2 hacc) ?_
        obtain ⟨kvs, hlk, hne⟩ := hgood
        exact ⟨kvs, by rw [aflStep_fst_lookup_ne S true true [] acc lang2 lang heq]; exact hlk,
          hne⟩

/-- Claim C1 (amended): for every source tree S (an object) and every
raw TranslationSet whose entries are trees, the reconciler with both
fallbacks enabled and an empty regional map maps every requested
language to a defined object tree, and that tree is non-empty whenever
the source is non-empty (for the empty source, a fully missing language
receives the empty tree {...S} = {}). -/
theorem applyFallbacks_total_with_fallback (raw : List (String × JValue)) (S : JValue)
    (T : List String) (sl : String) (SE : List (String × JValue)) (hS : S = .obj SE)
    (hraw : ∀ p ∈ raw, p.2.isObjStrict = true) (lang : String) (hlang : lang ∈ T) :
    ∃ t, lookupA (applyFallbacks raw S T sl true true []) lang = some t ∧
      t.isObjStrict = true ∧ (SE ≠ [] → t.entries ≠ []) := by
  obtain ⟨T1, T2, rfl⟩ := List.append_of_mem hlang
  have hacc1 := afl_fold_allobj S T1 (raw, FallbackInfo.init) hraw
  have hest := aflStep_establishes S SE hS
    (T1.foldl (aflStep S true true []) (raw, FallbackInfo.init)) lang hacc1
  have hall2 := aflStep_allobj S
    (T1.foldl (aflStep S true true []) (raw, FallbackInfo.init)) lang hacc1
  have hfold2 := afl_fold_establishes S SE hS T2
    (aflStep S true true [] (T1.foldl (aflStep S true true []) (raw, FallbackInfo.init)) lang)
    lang hall2 hest
  have hsplit : (T1 ++ lang :: T2).foldl (aflStep S true true []) (raw, FallbackInfo.init) =
      T2.foldl (aflStep S true true [])
        (aflStep S true true [] (T1.foldl (aflStep S true true []) (raw, FallbackInfo.init))
          lang) := by
    rw [List.foldl_append, List.foldl_cons]
  obtain ⟨kvs, hlk2, hne⟩ := hfold2
  simp only [applyFallbacks, hsplit]
  by_cases hfb : lang = "fallbackInfo"
  · subst hfb
    split
    · refine ⟨_, lookupA_setA_self _ _ _, rfl, fun _ => ?_⟩
      simp [FallbackInfo.toJValue, JValue.entries]
    · exact ⟨JValue.obj kvs, hlk2, rfl, fun h => by simpa [JValue.entries] using hne h⟩
  · split
    · refine ⟨JValue.obj kvs, ?_, rfl, fun h => by simpa [JValue.entries] using hne h⟩
      rw [lookupA_setA_ne _ "fallbackInfo" lang _ hfb]
      exact hlk2
    · exact ⟨JValue.obj kvs, hlk2, rfl, fun h => by simpa [JValue.entries] using hne h⟩

/-- Witness for claim C1's amended theorem: one missing language (es)
and one language present in raw (fr). -/
theorem applyFallbacks_total_with_fallback_witness :
    ∃ t, lookupA (applyFallbacks [("fr", .obj [("greeting", .str "Bonjour")])]
        (.obj [("greeting", .str "Hello")]) ["es", "fr"] "en" true true []) "es" =
      some t ∧ t.isObjStrict = true ∧
      ([(("greeting" : String), JValue.str "Hello")] ≠ [] → t.entries ≠ []) :=
  applyFallbacks_total_with_fallback [("fr", .obj [("greeting", .str "Bonjour")])]
    (.obj [("greeting", .str "Hello")]) ["es", "fr"] "en"
    [("greeting", .str "Hello")] rfl
    (by intro p hp; simp at hp; subst hp; rfl) "es" (by simp)
